import Mathlib

/-!
# Mandelbrot renderer (`src/mandelbrot.c`): embedding and verified properties

The C translation unit `mandelbrot.c` is embedded function by function.

* A finite `double` is the rational it stands for.  The `double` operations
  written in `mandelbrot.c` (`fabs(d.a) / D`, `y -= D`, `x += D`,
  `d.b / (double) NUM_THREADS`, `tl.b - (double) t * py`, `ptl.b - py`) round
  their exact result to binary64, to nearest with ties to even (`rnd64`).  A
  result beyond the largest finite `double` is kept as the large rational it
  rounds to: like the infinity it stands for it lies beyond every finite
  bound it is compared with, and it has no conversion to `int`.
* A decimal constant is read as C reads it: the step `D` of the header is used
  through its `double` value `stepD`, and `rOfD` takes the `double` values of
  its two arguments.  The components of a `Complex` and the coordinates of the
  loops are `double`s (`isDouble`).
* `int` values are integers; the product `i * L` and the difference `L - g`
  of `gray` are reduced to the 32-bit two's complement range (`wrap32`), and
  the conversion `(int) x` is defined only when the truncated value fits an
  `int` (`toInt`).
* The header `mandelbrot.h` (type `Complex`, the helpers `rOfD`, `cSub`,
  `cAdd`, `cSqre`, `cMod`, the constants `D`, `I`, `L`, `R`, `NUM_THREADS`) and
  `thread.h` are not part of the sources at hand.  The helpers are modelled
  from the specification, which asks them to follow complex algebra exactly;
  the constants are the fields of `Consts`.
* Undefined behaviour (a store outside the allocated grid, a conversion out
  of range, a null stream handed to `fprintf`) is an explicit result.
-/

namespace Mandel

/-! ## Data model -/

/-- Modelled from the spec: the complex point of `mandelbrot.h`, a pair of
reals `(a, b)`; the source reads the fields as `d.a` and `d.b`. -/
structure Complex where
  a : ℚ
  b : ℚ
  deriving DecidableEq

/-- The build-time constants that `mandelbrot.c` takes from `mandelbrot.h`:
sample step `D` (as the header writes it, a decimal such as `0.01`), iteration
cap `I`, escape radius `R` and the number of bands `NUM_THREADS`. -/
structure Consts where
  D : ℚ
  I : Int
  R : ℚ
  NUM_THREADS : Nat

/-- Modelled from the spec: the constant `L` of `mandelbrot.h`, the maximal
intensity written in the image header (255). -/
def L : Int := 255

/-- The largest value of a 32-bit `int`. -/
def INT_MAX : Int := 2147483647

/-- The smallest value of a 32-bit `int`. -/
def INT_MIN : Int := -2147483648

/-- Two's complement reduction of an integer to the 32-bit `int` range. -/
def wrap32 (x : Int) : Int := (x + 2147483648) % 4294967296 - 2147483648

/-- The grid `m->i`: `none` is a cell that has never been stored to. -/
abbrev Grid := Int → Int → Option Int

/-- The record `Mandelbrot` of `mandelbrot.h`, with the fields `mNew` sets. -/
structure Mandelbrot where
  tl : Complex
  br : Complex
  w : Int
  h : Int
  i : Grid
  invert : Bool

/-! ## Complex arithmetic (`mandelbrot.h`) -/

/-- Modelled from the spec: `add(a,b)` of the complex primitives, `cAdd` of
`mandelbrot.h`. -/
def cAdd (x y : Complex) : Complex := ⟨x.a + y.a, x.b + y.b⟩

/-- Modelled from the spec: `sub(a,b)` of the complex primitives, `cSub` of
`mandelbrot.h`. -/
def cSub (x y : Complex) : Complex := ⟨x.a - y.a, x.b - y.b⟩

/-- Modelled from the spec: `square(a) = a*a` (complex multiplication), `cSqre`
of `mandelbrot.h`. -/
def cSqre (x : Complex) : Complex := ⟨x.a * x.a - x.b * x.b, x.a * x.b + x.b * x.a⟩

/-- Modelled from the spec: the test `cMod(z) < r` with
`modulus(a) = sqrt(real²+imag²)` of `mandelbrot.h`.  The square root of a
rational is not rational in general, so the comparison is decided on the
squares; `cModLt_iff_sqrt` shows that this is the same test. -/
def cModLt (z : Complex) (r : ℚ) : Bool :=
  decide (0 < r ∧ z.a * z.a + z.b * z.b < r * r)

/-- The `fabs` of `math.h`. -/
def fabs (x : ℚ) : ℚ := |x|

/-! ## Binary64 arithmetic -/

/-- The power `2 ^ e` for an integer exponent `e`. -/
def pow2 (e : Int) : ℚ :=
  if 0 ≤ e then ((2 ^ e.toNat : Nat) : ℚ) else 1 / ((2 ^ (-e).toNat : Nat) : ℚ)

/-- The number of halvings that bring `n` below 2, with at most `fuel` of them. -/
def log2Aux : Nat → Nat → Nat
  | 0, _ => 0
  | fuel + 1, n => if n < 2 then 0 else log2Aux fuel (n / 2) + 1

/-- The binary logarithm of a natural number, rounded down. -/
def natLog2 (n : Nat) : Nat := log2Aux n n

/-- The binary exponent of a nonzero rational: the `e` with
`2^e ≤ |x| < 2^(e+1)`.  The difference of the logarithms of numerator and
denominator is `e` or `e + 1`. -/
def ilog2 (x : ℚ) : Int :=
  let e0 : Int := (natLog2 x.num.natAbs : Int) - (natLog2 x.den : Int)
  if pow2 e0 ≤ |x| then e0 else e0 - 1

/-- Rounding to the nearest integer, a tie going to the even one. -/
def roundEven (q : ℚ) : Int :=
  let f : Int := ⌊q⌋
  let r : ℚ := q - f
  if r < 1 / 2 then f
  else if 1 / 2 < r then f + 1
  else if f % 2 = 0 then f else f + 1

/-- Rounding of an exact result to binary64, to nearest with ties to even: 53
significant bits, and steps of `2^-1074` in the subnormal range. -/
def rnd64 (x : ℚ) : ℚ :=
  if x = 0 then 0
  else
    let e : Int := max (ilog2 x - 52) (-1074)
    (roundEven (x / pow2 e) : ℚ) * pow2 e

/-- The sum `x + y` of two `double`s. -/
def fadd (x y : ℚ) : ℚ := rnd64 (x + y)

/-- The difference `x - y` of two `double`s. -/
def fsub (x y : ℚ) : ℚ := rnd64 (x - y)

/-- The product `x * y` of two `double`s. -/
def fmul (x y : ℚ) : ℚ := rnd64 (x * y)

/-- The quotient `x / y` of two `double`s, for a divisor other than zero. -/
def fdiv (x y : ℚ) : ℚ := rnd64 (x / y)

/-- The rationals that are `double`s: those that rounding leaves as they are. -/
def isDouble (x : ℚ) : Prop := rnd64 x = x

/-- The `double` value of the constant `D`, as the code reads it. -/
def stepD (k : Consts) : ℚ := rnd64 k.D

/-- Modelled from the spec: `rOfD(a, b)` of `mandelbrot.h`, the complex point
with real part `a` and imaginary part `b`, both taken as `double`s. -/
def rOfD (a b : ℚ) : Complex := ⟨rnd64 a, rnd64 b⟩

/-- The conversion `(int) x` of a `double`: truncation toward zero, defined
when the truncated value is an `int`. -/
def toInt (x : ℚ) : Option Int :=
  let t : Int := if 0 ≤ x then ⌊x⌋ else ⌈x⌉
  if INT_MIN ≤ t ∧ t ≤ INT_MAX then some t else none

/-- The expression `(int) (x / d)`: the rounded `double` quotient, then the
conversion.  A division by zero gives no finite quotient, and then the
conversion is undefined. -/
def intOfQuot (x d : ℚ) : Option Int :=
  if d = 0 then none else toInt (fdiv x d)

/-! ## `mNew` (lines 10-21) -/

/-- The constructor `mNew`: stores the rectangle and the flag, derives the
grid size from the rectangle, allocates the grid (no cell is stored to). -/
def mNew (k : Consts) (tl br : Complex) (invert : Bool) : Option Mandelbrot :=
  let d := cSub tl br
  match intOfQuot (fabs d.a) (stepD k), intOfQuot (fabs d.b) (stepD k) with
  | some w, some h => some { tl := tl, br := br, w := w, h := h, i := fun _ _ => none, invert := invert }
  | _, _ => none

/-! ## `gray` and `iterate` (lines 41-53) -/

/-- The function `gray`: `g = i * L / I` in `int` arithmetic (the quotient of C
truncates toward zero), and `L - g` when `inv` is set.  The divisor `I` is
assumed nonzero by the source. -/
def gray (k : Consts) (i : Int) (inv : Bool) : Int :=
  let g := Int.tdiv (wrap32 (i * L)) k.I
  if inv then wrap32 (L - g) else g

/-- The loop of `iterate` from the state `(z, i)`: while `i < I` and
`cMod(z) < R`, replace `z` by `z² + c` and increment `i`; returns the final
state. -/
def iterLoop (k : Consts) (c z : Complex) (i : Int) : Complex × Int :=
  if i < k.I ∧ cModLt z k.R = true then iterLoop k c (cAdd (cSqre z) c) (i + 1) else (z, i)
termination_by (k.I - i).toNat
decreasing_by omega

/-- The function `iterate`: the loop from `z = 0` and `i = 0`, returning the
counter. -/
def iterate (k : Consts) (c : Complex) : Int :=
  (iterLoop k c (rOfD 0 0) 0).2

/-! ## `mandelbrot` (lines 55-65) -/

/-- The store `m->i[q][p] = v`; outside the allocated `h` rows of `w` cells it
is undefined. -/
def store (m : Mandelbrot) (g : Grid) (q p v : Int) : Option Grid :=
  if 0 ≤ q ∧ q < m.h ∧ 0 ≤ p ∧ p < m.w then
    some (fun q' p' => if q' = q ∧ p' = p then some v else g q' p')
  else none

/-- The inner loop of `mandelbrot` for the row `q` at the ordinate `y`, from the
state `(x, p)`: while `x <= br.a` and `p < w`, store the pixel and advance by
`x += D`, `p++`. -/
def rowLoop (k : Consts) (m : Mandelbrot) (y : ℚ) (q : Int) (x : ℚ) (p : Int) (g : Grid) :
    Option Grid :=
  if x ≤ m.br.a ∧ p < m.w then
    match store m g q p (gray k (iterate k (rOfD x y)) m.invert) with
    | none => none
    | some g' => rowLoop k m y q (fadd x (stepD k)) (p + 1) g'
  else some g
termination_by (m.w - p).toNat
decreasing_by omega

/-- The outer loop of `mandelbrot` from the state `(y, q)`: while `y >= br.b`
and `q < h`, run the inner loop from `x = tl.a` with `p = 0` (the counter is
0 at entry and reset to 0 after each row), then step down by `y -= D`,
`q++`. -/
def rowsLoop (k : Consts) (m : Mandelbrot) (y : ℚ) (q : Int) (g : Grid) : Option Grid :=
  if m.br.b ≤ y ∧ q < m.h then
    match rowLoop k m y q m.tl.a 0 g with
    | none => none
    | some g' => rowsLoop k m (fsub y (stepD k)) (q + 1) g'
  else some g
termination_by (m.h - q).toNat
decreasing_by omega

/-- The band kernel `mandelbrot`: fills the grid of `m`; `none` when a store
fell outside the grid. -/
def mandelbrot (k : Consts) (m : Mandelbrot) : Option Mandelbrot :=
  match rowsLoop k m m.tl.b 0 m.i with
  | none => none
  | some g => some { m with i := g }

/-! ## `save` (lines 30-39) -/

/-- One `fprintf` of `save`: the header (`P2`, width and height, `L`), a cell
followed by a blank, or the end of a row.  A cell never stored to is printed
with an indeterminate value (`none`). -/
inductive Out where
  | header (w h l : Int)
  | cell (v : Option Int)
  | eol
  deriving DecidableEq

/-- What a call of `save` comes to, with the output written up to that point.
`returned`: the function ran to its end.  `ioError`: an I/O error is reported
to the caller.  `undefined`: a null stream was handed to `fprintf`. -/
inductive SaveResult where
  | returned (out : List Out)
  | ioError (out : List Out)
  | undefined (out : List Out)
  deriving DecidableEq

/-- The cells of row `y` of buffer `m` that `save` prints: columns `0 .. w-1`
for the width `w` passed to `save`. -/
def saveRow (m : Mandelbrot) (w : Int) (y : Int) : List Out :=
  (List.range w.toNat).map (fun x => Out.cell (m.i y (x : Int))) ++ [Out.eol]

/-- The rows of buffer `m` that `save` prints: rows `0 .. m.h-1`. -/
def saveBuffer (m : Mandelbrot) (w : Int) : List Out :=
  (List.range m.h.toNat).flatMap (fun y => saveRow m w (y : Int))

/-- The function `save`; `fopen fn` tells whether the path `fn` can be opened
for writing.  The stream is not tested: the header is printed to whatever
`fopen` returned.  The count `n` of the source is the length of `mm`. -/
def save (fopen : String → Bool) (mm : List Mandelbrot) (w h : Int) (fn : String) : SaveResult :=
  if fopen fn then
    SaveResult.returned (Out.header w h L :: mm.flatMap (fun m => saveBuffer m w))
  else SaveResult.undefined []

/-! ## `serial` and `parallel` (lines 67-93) -/

/-- The buffer of `serial` after the kernel has run (lines 69-70). -/
def serialBuffer (k : Consts) : Option Mandelbrot :=
  match mNew k (rOfD (-3) 2) (rOfD 1 (-2)) true with
  | none => none
  | some m => mandelbrot k m

/-- The function `serial`: one inverted buffer over the whole rectangle, saved
with its own width and height. -/
def serial (k : Consts) (fopen : String → Bool) : SaveResult :=
  match serialBuffer k with
  | none => SaveResult.undefined []
  | some m => save fopen [m] m.w m.h "./mandelbrot-s.pgm"

/-- The corner `ptl` of band `t` (line 85): `rOfD(tl.a, tl.b - (double) t * py)`. -/
def patchTl (tl : Complex) (py : ℚ) (t : Nat) : Complex :=
  rOfD tl.a (fsub tl.b (fmul (t : ℚ) py))

/-- The corner `pbr` of band `t` (line 86): `rOfD(br.a, ptl.b - py)`. -/
def patchBr (tl br : Complex) (py : ℚ) (t : Nat) : Complex :=
  rOfD br.a (fsub (patchTl tl py t).b py)

/-- Band `t` of `parallel` (lines 85-88): the buffer over the patch of height
`py` below `tl.b - t * py`, filled by the kernel that `tRun` starts on it. -/
def band (k : Consts) (tl br : Complex) (py : ℚ) (t : Nat) : Option Mandelbrot :=
  match mNew k (patchTl tl py t) (patchBr tl br py t) false with
  | none => none
  | some m => mandelbrot k m

/-- The array `mm` of `parallel` once every thread has been joined (lines
79-90).  The kernels share no state, so their results are those of running
them one after the other.  Without bands (`NUM_THREADS = 0`) the patch height
is not used. -/
def parallelBuffers (k : Consts) : Option (List Mandelbrot) :=
  let tl := rOfD (-3) 2
  let br := rOfD 1 (-2)
  let d := cSub tl br
  let py := fdiv d.b (k.NUM_THREADS : ℚ)
  (List.range k.NUM_THREADS).mapM (band k tl br py)

/-- The width and height `parallel` passes to `save` (line 91), recomputed
from the whole rectangle. -/
def parallelDims (k : Consts) : Option (Int × Int) :=
  let d := cSub (rOfD (-3) 2) (rOfD 1 (-2))
  match intOfQuot (fabs d.a) (stepD k), intOfQuot (fabs d.b) (stepD k) with
  | some w, some h => some (w, h)
  | _, _ => none

/-- The function `parallel`: the bands, then `save` of all of them. -/
def parallel (k : Consts) (fopen : String → Bool) : SaveResult :=
  match parallelBuffers k, parallelDims k with
  | some mm, some (w, h) => save fopen mm w h "./mandelbrot-p.pgm"
  | _, _ => SaveResult.undefined []

/-! ## Reference definitions used in the statements -/

/-- The orbit of `0` under `z ↦ z² + c`: `orbit c n` is the point reached after
`n` applications. -/
def orbit (c : Complex) : Nat → Complex
  | 0 => rOfD 0 0
  | n + 1 => cAdd (cSqre (orbit c n)) c

/-- Constants for the worked instances: step 0.01, cap 1000, escape radius 2,
four bands. -/
def exampleConsts : Consts := { D := 1 / 100, I := 1000, R := 2, NUM_THREADS := 4 }

/-- Constants with the coarse step `0.5625`: cap 1000, escape radius 2, four
bands. -/
def coarseConsts : Consts := { D := 9 / 16, I := 1000, R := 2, NUM_THREADS := 4 }

/-- Constants with the cap 2: step 0.01, escape radius 2, four bands. -/
def capTwoConsts : Consts := { D := 1 / 100, I := 2, R := 2, NUM_THREADS := 4 }

/-- The abscissa of column `n` of a row that starts at `x0`: `n` times
`x += D`. -/
def xAt (k : Consts) (x0 : ℚ) : Nat → ℚ
  | 0 => x0
  | n + 1 => fadd (xAt k x0 n) (stepD k)

/-- The ordinate of row `n` of a buffer that starts at `y0`: `n` times
`y -= D`. -/
def yAt (k : Consts) (y0 : ℚ) : Nat → ℚ
  | 0 => y0
  | n + 1 => fsub (yAt k y0 n) (stepD k)

/-- The test of the inner loop at column `i`: `x <= br.a && p < w`. -/
def colOk (k : Consts) (m : Mandelbrot) (i : Nat) : Prop :=
  xAt k m.tl.a i ≤ m.br.a ∧ (i : Int) < m.w

/-- The test of the outer loop at row `j`: `y >= br.b && q < h`. -/
def rowOk (k : Consts) (m : Mandelbrot) (j : Nat) : Prop :=
  m.br.b ≤ yAt k m.tl.b j ∧ (j : Int) < m.h

/-- One pass over the abscissas `x`, `x + D`, ... of `n + 1` columns, checking
`x <= b` at each. -/
def xsLe (k : Consts) (b : ℚ) : Nat → ℚ → Bool
  | 0, x => decide (x ≤ b)
  | n + 1, x => decide (x ≤ b) && xsLe k b n (fadd x (stepD k))

/-- One pass over the ordinates `y`, `y - D`, ... of `n + 1` rows, checking
`y >= b` at each. -/
def ysGe (k : Consts) (b : ℚ) : Nat → ℚ → Bool
  | 0, y => decide (b ≤ y)
  | n + 1, y => decide (b ≤ y) && ysGe k b n (fsub y (stepD k))

/-- The cells inside the allocated grid of `m`. -/
def inGrid (m : Mandelbrot) (q p : Int) : Prop := 0 ≤ q ∧ q < m.h ∧ 0 ≤ p ∧ p < m.w

/-! ## Integer arithmetic of `gray` -/

theorem wrap32_of_int (x : Int) (h1 : INT_MIN ≤ x) (h2 : x ≤ INT_MAX) : wrap32 x = x := by
  unfold wrap32
  unfold INT_MIN at h1
  unfold INT_MAX at h2
  omega

theorem wrap32_range (x : Int) : INT_MIN ≤ wrap32 x ∧ wrap32 x ≤ INT_MAX := by
  unfold wrap32 INT_MIN INT_MAX
  omega

/-- The truncating quotient of `a` by `b > 0` is bounded by `c` as soon as
`|a| ≤ c * b`. -/
theorem tdiv_bound (a b c : Int) (hb : 0 < b) (h1 : -(c * b) ≤ a) (h2 : a ≤ c * b) :
    -c ≤ Int.tdiv a b ∧ Int.tdiv a b ≤ c := by
  rcases le_or_lt 0 a with ha | ha
  · rw [Int.tdiv_eq_ediv ha hb.le]
    constructor
    · have h0 : 0 ≤ a / b := Int.ediv_nonneg ha hb.le
      have hc : 0 ≤ c := by
        by_contra hneg
        have : c * b < 0 := mul_neg_of_neg_of_pos (not_le.mp hneg) hb
        omega
      omega
    · exact Int.ediv_le_of_le_mul hb h2
  · have hna : 0 ≤ -a := by omega
    have e : Int.tdiv a b = -((-a) / b) := by
      have := Int.neg_tdiv (-a) b
      rw [neg_neg] at this
      rw [this, Int.tdiv_eq_ediv hna hb.le]
    rw [e]
    have h0 : 0 ≤ (-a) / b := Int.ediv_nonneg hna hb.le
    have h3 : (-a) / b ≤ c := Int.ediv_le_of_le_mul hb (by omega)
    constructor <;> omega

/-- Without overflow of `i * L`, the quotient `g` of `gray` is the floor of
`i * 255 / I` and lies in `[0, 255]`. -/
theorem gray_quot_exact (k : Consts) (i : Int) (hI : 0 < k.I) (h0 : 0 ≤ i) (h1 : i ≤ k.I)
    (hov : i * L ≤ INT_MAX) :
    Int.tdiv (wrap32 (i * L)) k.I = i * 255 / k.I ∧ 0 ≤ i * 255 / k.I ∧ i * 255 / k.I ≤ 255 := by
  have hL : L = 255 := rfl
  rw [hL] at hov ⊢
  have hw : wrap32 (i * 255) = i * 255 := by
    apply wrap32_of_int
    · unfold INT_MIN; omega
    · exact hov
  rw [hw, Int.tdiv_eq_ediv (by omega) hI.le]
  refine ⟨rfl, Int.ediv_nonneg (by omega) hI.le, Int.ediv_le_of_le_mul hI (by omega)⟩

/-- With or without overflow of `i * L`, the quotient `g` of `gray` lies in
`[-255, 255]` for `0 ≤ i ≤ I ≤ INT_MAX`. -/
theorem gray_quot_bound (k : Consts) (i : Int) (hI : 0 < k.I)
    (h0 : 0 ≤ i) (h1 : i ≤ k.I) :
    -255 ≤ Int.tdiv (wrap32 (i * L)) k.I ∧ Int.tdiv (wrap32 (i * L)) k.I ≤ 255 := by
  rcases le_or_lt (i * L) INT_MAX with hov | hov
  · obtain ⟨e, a, b⟩ := gray_quot_exact k i hI h0 h1 hov
    rw [e]
    constructor <;> omega
  · have hr := wrap32_range (i * L)
    have hL : L = 255 := rfl
    rw [hL] at hov hr ⊢
    unfold INT_MAX at hov hr
    unfold INT_MIN at hr
    apply tdiv_bound _ _ 255 hI <;> omega

theorem gray_false (k : Consts) (i : Int) :
    gray k i false = Int.tdiv (wrap32 (i * L)) k.I := by
  simp [gray]

theorem gray_true (k : Consts) (i : Int) (hI : 0 < k.I) (h0 : 0 ≤ i) (h1 : i ≤ k.I) :
    gray k i true = 255 - Int.tdiv (wrap32 (i * L)) k.I := by
  have hb := gray_quot_bound k i hI h0 h1
  have hL : L = 255 := rfl
  simp only [gray, if_true, hL] at hb ⊢
  apply wrap32_of_int
  · unfold INT_MIN; omega
  · unfold INT_MAX; omega

/-- At the cap, without overflow, `gray` gives the full intensity. -/
theorem gray_cap (k : Consts) (hI : 0 < k.I) (hov : k.I * L ≤ INT_MAX) :
    gray k k.I false = 255 ∧ gray k k.I true = 0 := by
  obtain ⟨e, _, _⟩ := gray_quot_exact k k.I hI hI.le le_rfl hov
  have h255 : k.I * 255 / k.I = 255 := Int.mul_ediv_cancel_left 255 (ne_of_gt hI)
  rw [gray_true k k.I hI hI.le le_rfl, gray_false, e, h255]
  simp

/-! ## The loop of `iterate` -/

/-- The test `cModLt z r` is the comparison of the real modulus
`sqrt(a² + b²)` with `r`. -/
theorem cModLt_iff_sqrt (z : Complex) (r : ℚ) :
    cModLt z r = true ↔ Real.sqrt ((z.a : ℝ) ^ 2 + (z.b : ℝ) ^ 2) < (r : ℝ) := by
  unfold cModLt
  rw [decide_eq_true_iff]
  constructor
  · rintro ⟨hr, hlt⟩
    have hr' : (0 : ℝ) < (r : ℝ) := by exact_mod_cast hr
    rw [Real.sqrt_lt' hr']
    have : ((z.a * z.a + z.b * z.b : ℚ) : ℝ) < ((r * r : ℚ) : ℝ) := by exact_mod_cast hlt
    push_cast at this
    nlinarith
  · intro h
    have hr' : (0 : ℝ) < (r : ℝ) := lt_of_le_of_lt (Real.sqrt_nonneg _) h
    have hr : 0 < r := by exact_mod_cast hr'
    refine ⟨hr, ?_⟩
    rw [Real.sqrt_lt' hr'] at h
    have h2 : ((z.a * z.a + z.b * z.b : ℚ) : ℝ) < ((r * r : ℚ) : ℝ) := by
      push_cast
      nlinarith
    exact_mod_cast h2

/-- Started on the `n`-th orbit point with counter `n`, the loop of `iterate`
stops on some later orbit point `m` with counter `m`; it never passes the cap,
and below the cap it has stopped on a failed modulus test. -/
theorem iterLoop_orbit (k : Consts) (c : Complex) :
    ∀ (d n : Nat), (k.I - (n : Int)).toNat = d →
      ∃ m : Nat, n ≤ m ∧ iterLoop k c (orbit c n) (n : Int) = (orbit c m, (m : Int)) ∧
        ((n : Int) ≤ k.I → (m : Int) ≤ k.I) ∧
        ((m : Int) < k.I → cModLt (orbit c m) k.R = false) := by
  intro d
  induction d with
  | zero =>
    intro n hd
    refine ⟨n, le_rfl, ?_, fun h => h, fun h => by omega⟩
    rw [iterLoop, if_neg]
    rintro ⟨h, _⟩
    omega
  | succ d ih =>
    intro n hd
    by_cases hg : (n : Int) < k.I ∧ cModLt (orbit c n) k.R = true
    · obtain ⟨m, hnm, hm, hcap, hesc⟩ := ih (n + 1) (by push_cast; omega)
      refine ⟨m, by omega, ?_, fun _ => hcap (by push_cast; omega), hesc⟩
      rw [iterLoop, if_pos hg]
      push_cast at hm
      exact hm
    · refine ⟨n, le_rfl, ?_, fun h => h, ?_⟩
      · rw [iterLoop, if_neg hg]
      · intro hlt
        by_contra hne
        exact hg ⟨hlt, by simpa using hne⟩

/-- The result of `iterate` in terms of the orbit: the loop stops after `n`
applications on the `n`-th orbit point. -/
theorem iterate_orbit (k : Consts) (c : Complex) (hI : 0 ≤ k.I) :
    ∃ n : Nat, iterLoop k c (rOfD 0 0) 0 = (orbit c n, (n : Int)) ∧ iterate k c = (n : Int) ∧
      (n : Int) ≤ k.I ∧ ((n : Int) < k.I → cModLt (orbit c n) k.R = false) := by
  obtain ⟨m, _, hm, hcap, hesc⟩ := iterLoop_orbit k c _ 0 rfl
  have hm' : iterLoop k c (rOfD 0 0) 0 = (orbit c m, (m : Int)) := by simpa [orbit] using hm
  refine ⟨m, hm', ?_, hcap (by simpa using hI), hesc⟩
  simp [iterate, hm']

/-- The counter returned by `iterate` lies in `[0, I]` for a cap `I ≥ 0`. -/
theorem iterate_range (k : Consts) (c : Complex) (hI : 0 ≤ k.I) :
    0 ≤ iterate k c ∧ iterate k c ≤ k.I := by
  obtain ⟨n, _, hn, hcap, _⟩ := iterate_orbit k c hI
  rw [hn]
  exact ⟨by omega, hcap⟩

/-- A point whose whole orbit passes the modulus test runs to the cap. -/
theorem iterate_eq_cap (k : Consts) (c : Complex) (hI : 0 ≤ k.I)
    (h : ∀ n, cModLt (orbit c n) k.R = true) : iterate k c = k.I := by
  obtain ⟨n, _, hn, hcap, hesc⟩ := iterate_orbit k c hI
  rw [hn]
  by_contra hne
  have hlt : (n : Int) < k.I := lt_of_le_of_ne hcap hne
  have := hesc hlt
  rw [h n] at this
  exact Bool.noConfusion this

/-- The points `0` and `-1` have `double` components. -/
theorem rOfD_zero_neg_one : rOfD 0 0 = ⟨0, 0⟩ ∧ rOfD (-1) 0 = ⟨-1, 0⟩ := by
  decide!

/-- The orbit of `c = -1` alternates between `0` and `-1`. -/
theorem orbit_neg_one (n : Nat) :
    orbit (rOfD (-1) 0) n = rOfD 0 0 ∨ orbit (rOfD (-1) 0) n = rOfD (-1) 0 := by
  induction n with
  | zero => left; rfl
  | succ n ih =>
    rcases ih with h | h
    · right
      rw [orbit, h, rOfD_zero_neg_one.1, rOfD_zero_neg_one.2]
      simp only [cAdd, cSqre]
      norm_num
    · left
      rw [orbit, h, rOfD_zero_neg_one.1, rOfD_zero_neg_one.2]
      simp only [cAdd, cSqre]
      norm_num

/-- With the escape radius 2 the point `c = -1` runs to the cap. -/
theorem iterate_neg_one (k : Consts) (hI : 0 ≤ k.I) (hR : k.R = 2) :
    iterate k (rOfD (-1) 0) = k.I := by
  apply iterate_eq_cap k _ hI
  intro n
  rcases orbit_neg_one n with h | h
  · rw [h, hR, rOfD_zero_neg_one.1]
    simp only [cModLt, decide_eq_true_eq]
    norm_num
  · rw [h, hR, rOfD_zero_neg_one.2]
    simp only [cModLt, decide_eq_true_eq]
    norm_num

/-! ## Binary64 rounding -/

theorem pow2_pos (e : Int) : 0 < pow2 e := by
  unfold pow2
  split
  · positivity
  · positivity

theorem roundEven_nonneg (q : ℚ) (hq : 0 ≤ q) : 0 ≤ roundEven q := by
  have hf : (0 : Int) ≤ ⌊q⌋ := Int.floor_nonneg.mpr hq
  unfold roundEven
  simp only
  split
  · exact hf
  · split
    · omega
    · split <;> omega

/-- The rounding of a result that is not negative is not negative. -/
theorem rnd64_nonneg (x : ℚ) (hx : 0 ≤ x) : 0 ≤ rnd64 x := by
  unfold rnd64
  split
  · exact le_rfl
  · simp only
    apply mul_nonneg
    · exact_mod_cast roundEven_nonneg _ (div_nonneg hx (pow2_pos _).le)
    · exact (pow2_pos _).le

/-- The `double` written `0.01`. -/
theorem rnd64_centi : rnd64 (1 / 100) = 5764607523034235 / 576460752303423488 := by
  decide!

/-- The constants of the fixed rectangle, the origin and the unit are `double`s. -/
theorem isDouble_small :
    isDouble 0 ∧ isDouble 1 ∧ isDouble 2 ∧ isDouble (-1) ∧ isDouble (-2) ∧ isDouble (-3) := by
  unfold isDouble
  decide!

/-- Moving the first step of an abscissa sequence into its start. -/
theorem xAt_shift (k : Consts) (x0 : ℚ) (n : Nat) :
    xAt k x0 (n + 1) = xAt k (fadd x0 (stepD k)) n := by
  induction n with
  | zero => rfl
  | succ n ih =>
    show fadd (xAt k x0 (n + 1)) (stepD k) = fadd (xAt k (fadd x0 (stepD k)) n) (stepD k)
    rw [ih]

/-- Moving the first step of an ordinate sequence into its start. -/
theorem yAt_shift (k : Consts) (y0 : ℚ) (n : Nat) :
    yAt k y0 (n + 1) = yAt k (fsub y0 (stepD k)) n := by
  induction n with
  | zero => rfl
  | succ n ih =>
    show fsub (yAt k y0 (n + 1)) (stepD k) = fsub (yAt k (fsub y0 (stepD k)) n) (stepD k)
    rw [ih]

/-- The one-pass check `xsLe` bounds every abscissa up to column `n`. -/
theorem xsLe_sound (k : Consts) (b : ℚ) :
    ∀ (n : Nat) (x0 : ℚ), xsLe k b n x0 = true → ∀ i, i ≤ n → xAt k x0 i ≤ b := by
  intro n
  induction n with
  | zero =>
    intro x0 h i hi
    have hi0 : i = 0 := by omega
    subst hi0
    simpa [xsLe] using h
  | succ n ih =>
    intro x0 h i hi
    simp only [xsLe, Bool.and_eq_true, decide_eq_true_eq] at h
    cases i with
    | zero => exact h.1
    | succ i =>
      rw [xAt_shift]
      exact ih _ h.2 i (by omega)

/-- The one-pass check `ysGe` bounds every ordinate up to row `n`. -/
theorem ysGe_sound (k : Consts) (b : ℚ) :
    ∀ (n : Nat) (y0 : ℚ), ysGe k b n y0 = true → ∀ i, i ≤ n → b ≤ yAt k y0 i := by
  intro n
  induction n with
  | zero =>
    intro y0 h i hi
    have hi0 : i = 0 := by omega
    subst hi0
    simpa [ysGe] using h
  | succ n ih =>
    intro y0 h i hi
    simp only [ysGe, Bool.and_eq_true, decide_eq_true_eq] at h
    cases i with
    | zero => exact h.1
    | succ i =>
      rw [yAt_shift]
      exact ih _ h.2 i (by omega)

/-! ## `mNew` -/

theorem toInt_of_nonneg (x : ℚ) (hx : 0 ≤ x) (hmax : ⌊x⌋ ≤ INT_MAX) : toInt x = some ⌊x⌋ := by
  have h0 : (0 : Int) ≤ ⌊x⌋ := Int.floor_nonneg.mpr hx
  have hmin : INT_MIN ≤ ⌊x⌋ := by unfold INT_MIN; omega
  simp [toInt, hx, hmin, hmax]

/-- The rounded quotient of `fabs x` by a step `d > 0` is not negative. -/
theorem fdiv_fabs_nonneg (x d : ℚ) (hd : 0 < d) : 0 ≤ fdiv (fabs x) d :=
  rnd64_nonneg _ (div_nonneg (abs_nonneg x) hd.le)

/-- The size `(int) (fabs(x) / D)` for a step `D > 0`: the floor of the
rounded quotient, provided it is an `int`. -/
theorem intOfQuot_pos (x d : ℚ) (hd : 0 < d) (hmax : ⌊fdiv (fabs x) d⌋ ≤ INT_MAX) :
    intOfQuot (fabs x) d = some ⌊fdiv (fabs x) d⌋ := by
  simp only [intOfQuot, ne_of_gt hd, if_false]
  exact toInt_of_nonneg _ (fdiv_fabs_nonneg x d hd) hmax

/-- The buffer `mNew` returns for a step `D > 0` when both sizes are `int`s. -/
theorem mNew_pos (k : Consts) (tl br : Complex) (inv : Bool) (hD : 0 < stepD k)
    (hw : ⌊fdiv (fabs (cSub tl br).a) (stepD k)⌋ ≤ INT_MAX)
    (hh : ⌊fdiv (fabs (cSub tl br).b) (stepD k)⌋ ≤ INT_MAX) :
    mNew k tl br inv =
      some { tl := tl, br := br, w := ⌊fdiv (fabs (cSub tl br).a) (stepD k)⌋,
             h := ⌊fdiv (fabs (cSub tl br).b) (stepD k)⌋, i := fun _ _ => none, invert := inv } := by
  simp only [mNew]
  rw [intOfQuot_pos _ _ hD hw, intOfQuot_pos _ _ hD hh]

/-- The grid of a buffer of `mNew` holds no stored cell, and its corners and
flag are the arguments. -/
theorem mNew_fields (k : Consts) (tl br : Complex) (inv : Bool) (m : Mandelbrot)
    (h : mNew k tl br inv = some m) :
    m.tl = tl ∧ m.br = br ∧ m.invert = inv ∧ m.i = fun _ _ => none := by
  simp only [mNew] at h
  split at h
  · rw [← Option.some.inj h]
    exact ⟨rfl, rfl, rfl, rfl⟩
  · exact Option.noConfusion h

/-! ## The loops of `mandelbrot` -/

/-- The inner loop performs no store outside the grid: it returns a grid, which
agrees with the initial one outside the allocation. -/
theorem rowLoop_total (k : Consts) (m : Mandelbrot) (y : ℚ) (q : Int) (hq0 : 0 ≤ q)
    (hq1 : q < m.h) :
    ∀ (d : Nat) (x : ℚ) (p : Int) (g : Grid), (m.w - p).toNat = d → 0 ≤ p →
      ∃ g', rowLoop k m y q x p g = some g' ∧ ∀ q' p', ¬ inGrid m q' p' → g' q' p' = g q' p' := by
  intro d
  induction d with
  | zero =>
    intro x p g hd hp
    refine ⟨g, ?_, fun _ _ _ => rfl⟩
    rw [rowLoop, if_neg]
    rintro ⟨_, h⟩
    omega
  | succ d ih =>
    intro x p g hd hp
    by_cases hg : x ≤ m.br.a ∧ p < m.w
    · have hs : store m g q p (gray k (iterate k (rOfD x y)) m.invert) =
          some (fun q' p' => if q' = q ∧ p' = p
            then some (gray k (iterate k (rOfD x y)) m.invert) else g q' p') := by
        simp [store, hq0, hq1, hp, hg.2]
      obtain ⟨g', hg', hfr⟩ := ih (fadd x (stepD k)) (p + 1) _ (by omega) (by omega)
      refine ⟨g', ?_, ?_⟩
      · rw [rowLoop, if_pos hg, hs]
        exact hg'
      · intro q' p' hout
        rw [hfr q' p' hout]
        have : ¬ (q' = q ∧ p' = p) := by
          rintro ⟨rfl, rfl⟩
          exact hout ⟨hq0, hq1, hp, hg.2⟩
        simp [this]
    · refine ⟨g, ?_, fun _ _ _ => rfl⟩
      rw [rowLoop, if_neg hg]

/-- The outer loop performs no store outside the grid. -/
theorem rowsLoop_total (k : Consts) (m : Mandelbrot) :
    ∀ (d : Nat) (y : ℚ) (q : Int) (g : Grid), (m.h - q).toNat = d → 0 ≤ q →
      ∃ g', rowsLoop k m y q g = some g' ∧ ∀ q' p', ¬ inGrid m q' p' → g' q' p' = g q' p' := by
  intro d
  induction d with
  | zero =>
    intro y q g hd hq
    refine ⟨g, ?_, fun _ _ _ => rfl⟩
    rw [rowsLoop, if_neg]
    rintro ⟨_, h⟩
    omega
  | succ d ih =>
    intro y q g hd hq
    by_cases hg : m.br.b ≤ y ∧ q < m.h
    · obtain ⟨g1, h1, fr1⟩ := rowLoop_total k m y q hq hg.2 _ m.tl.a 0 g rfl le_rfl
      obtain ⟨g2, h2, fr2⟩ := ih (fsub y (stepD k)) (q + 1) g1 (by omega) (by omega)
      refine ⟨g2, ?_, fun q' p' hout => by rw [fr2 q' p' hout, fr1 q' p' hout]⟩
      rw [rowsLoop, if_pos hg, h1]
      exact h2
    · refine ⟨g, ?_, fun _ _ _ => rfl⟩
      rw [rowsLoop, if_neg hg]

/-- The kernel performs no store outside the grid, whatever the buffer. -/
theorem mandelbrot_total (k : Consts) (m : Mandelbrot) :
    ∃ g, mandelbrot k m = some { m with i := g } ∧
      ∀ q p, ¬ inGrid m q p → g q p = m.i q p := by
  obtain ⟨g, hg, fr⟩ := rowsLoop_total k m _ m.tl.b 0 m.i rfl le_rfl
  refine ⟨g, ?_, fr⟩
  simp [mandelbrot, hg]

/-- The inner loop on row `q`, started at column `n` on the abscissa
`xAt k x0 n`.  It returns a grid in which: the cells of other rows and of the
columns before `n` are untouched; a cell of a column `j` from `n` on holds the
gray value of its sample point when the loop test held at every column from
`n` to `j`; it is untouched when the test failed at one of them. -/
theorem rowLoop_cells (k : Consts) (m : Mandelbrot) (y : ℚ) (q : Int) (hq0 : 0 ≤ q)
    (hq1 : q < m.h) (x0 : ℚ) :
    ∀ (d n : Nat) (g : Grid), (m.w - (n : Int)).toNat = d →
      ∃ g', rowLoop k m y q (xAt k x0 n) (n : Int) g = some g' ∧
        (∀ q' p', (q' ≠ q ∨ p' < (n : Int)) → g' q' p' = g q' p') ∧
        (∀ j : Nat, n ≤ j →
          (∀ i, n ≤ i → i ≤ j → xAt k x0 i ≤ m.br.a ∧ (i : Int) < m.w) →
          g' q (j : Int) = some (gray k (iterate k (rOfD (xAt k x0 j) y)) m.invert)) ∧
        (∀ j : Nat, n ≤ j →
          (∃ i, n ≤ i ∧ i ≤ j ∧ ¬ (xAt k x0 i ≤ m.br.a ∧ (i : Int) < m.w)) →
          g' q (j : Int) = g q (j : Int)) := by
  intro d
  induction d with
  | zero =>
    intro n g hd
    refine ⟨g, ?_, fun _ _ _ => rfl, ?_, fun _ _ _ => rfl⟩
    · rw [rowLoop, if_neg]
      rintro ⟨_, h⟩
      omega
    · intro j hj hall
      have := (hall n le_rfl hj).2
      omega
  | succ d ih =>
    intro n g hd
    by_cases hg : xAt k x0 n ≤ m.br.a ∧ (n : Int) < m.w
    · have hs : store m g q (n : Int) (gray k (iterate k (rOfD (xAt k x0 n) y)) m.invert) =
          some (fun q' p' => if q' = q ∧ p' = (n : Int)
            then some (gray k (iterate k (rOfD (xAt k x0 n) y)) m.invert) else g q' p') := by
        simp [store, hq0, hq1, hg.2]
      obtain ⟨g', hg', hfr, hval, hstop⟩ := ih (n + 1)
        (fun q' p' => if q' = q ∧ p' = (n : Int)
          then some (gray k (iterate k (rOfD (xAt k x0 n) y)) m.invert) else g q' p')
        (by push_cast; omega)
      have hnext : rowLoop k m y q (fadd (xAt k x0 n) (stepD k)) ((n : Int) + 1)
          (fun q' p' => if q' = q ∧ p' = (n : Int)
            then some (gray k (iterate k (rOfD (xAt k x0 n) y)) m.invert) else g q' p')
          = some g' := by
        have e : ((n + 1 : Nat) : Int) = (n : Int) + 1 := by push_cast; rfl
        rw [← e]
        exact hg'
      refine ⟨g', ?_, ?_, ?_, ?_⟩
      · rw [rowLoop, if_pos hg, hs]
        exact hnext
      · intro q' p' hout
        rw [hfr q' p' (by rcases hout with h | h; exact Or.inl h; right; push_cast; omega)]
        have hne : ¬ (q' = q ∧ p' = (n : Int)) := by
          rintro ⟨h1, h2⟩
          rcases hout with h | h
          · exact h h1
          · omega
        simp only [hne, if_false]
      · intro j hj hall
        rcases Nat.eq_or_lt_of_le hj with heq | hlt
        · subst heq
          rw [hfr q (n : Int) (by right; push_cast; omega)]
          simp
        · exact hval j hlt (fun i hi1 hi2 => hall i (by omega) hi2)
      · intro j hj hex
        obtain ⟨i, hi1, hi2, hbad⟩ := hex
        have hin : i ≠ n := by
          rintro rfl
          exact hbad hg
        have hjn : n + 1 ≤ j := by omega
        rw [hstop j hjn ⟨i, by omega, hi2, hbad⟩]
        have hne : ¬ (q = q ∧ (j : Int) = (n : Int)) := by
          rintro ⟨_, h2⟩
          omega
        rw [if_neg hne]
    · refine ⟨g, ?_, fun _ _ _ => rfl, ?_, fun _ _ _ => rfl⟩
      · rw [rowLoop, if_neg hg]
      · intro j hj hall
        exact absurd (hall n le_rfl hj) hg

/-- The outer loop started at row `n` on the ordinate `yAt k m.tl.b n`.  It
returns a grid in which: the rows before `n` are untouched; in a row `j` from
`n` on, reached with the loop test holding at every row from `n` to `j`, the
cell of column `p` holds the gray value of its sample point when the column
test held at every column up to `p`, and is untouched when that test failed at
one of them. -/
theorem rowsLoop_cells (k : Consts) (m : Mandelbrot) :
    ∀ (d n : Nat) (g : Grid), (m.h - (n : Int)).toNat = d →
      ∃ g', rowsLoop k m (yAt k m.tl.b n) (n : Int) g = some g' ∧
        (∀ q' p', q' < (n : Int) → g' q' p' = g q' p') ∧
        (∀ j p : Nat, n ≤ j → (∀ i, n ≤ i → i ≤ j → rowOk k m i) →
          (∀ i, i ≤ p → colOk k m i) →
          g' (j : Int) (p : Int) =
            some (gray k (iterate k (rOfD (xAt k m.tl.a p) (yAt k m.tl.b j))) m.invert)) ∧
        (∀ j p : Nat, n ≤ j → (∀ i, n ≤ i → i ≤ j → rowOk k m i) →
          (∃ i, i ≤ p ∧ ¬ colOk k m i) → g' (j : Int) (p : Int) = g (j : Int) (p : Int)) := by
  intro d
  induction d with
  | zero =>
    intro n g hd
    refine ⟨g, ?_, fun _ _ _ => rfl, ?_, ?_⟩
    · rw [rowsLoop, if_neg]
      rintro ⟨_, h⟩
      omega
    · intro j p hj hrows _
      have := (hrows n le_rfl hj).2
      omega
    · intro j p hj hrows _
      have := (hrows n le_rfl hj).2
      omega
  | succ d ih =>
    intro n g hd
    by_cases hg : m.br.b ≤ yAt k m.tl.b n ∧ (n : Int) < m.h
    · obtain ⟨g1, h1, fr1, val1, stop1⟩ :=
        rowLoop_cells k m (yAt k m.tl.b n) (n : Int) (by omega) hg.2 m.tl.a _ 0 g rfl
      have h1' : rowLoop k m (yAt k m.tl.b n) (n : Int) m.tl.a 0 g = some g1 := h1
      obtain ⟨g2, h2, fr2, val2, stop2⟩ := ih (n + 1) g1 (by push_cast; omega)
      have hnext : rowsLoop k m (fsub (yAt k m.tl.b n) (stepD k)) ((n : Int) + 1) g1 = some g2 := by
        have e : ((n + 1 : Nat) : Int) = (n : Int) + 1 := by push_cast; rfl
        rw [← e]
        exact h2
      refine ⟨g2, ?_, ?_, ?_, ?_⟩
      · rw [rowsLoop, if_pos hg, h1']
        exact hnext
      · intro q' p' hq'
        rw [fr2 q' p' (by push_cast; omega), fr1 q' p' (Or.inl (by omega))]
      · intro j p hj hrows hcols
        rcases Nat.eq_or_lt_of_le hj with heq | hlt
        · subst heq
          rw [fr2 (n : Int) (p : Int) (by push_cast; omega)]
          exact val1 p (Nat.zero_le _) (fun i _ hi => hcols i hi)
        · exact val2 j p hlt (fun i hi1 hi2 => hrows i (by omega) hi2) hcols
      · intro j p hj hrows hex
        obtain ⟨i, hi, hbad⟩ := hex
        rcases Nat.eq_or_lt_of_le hj with heq | hlt
        · subst heq
          rw [fr2 (n : Int) (p : Int) (by push_cast; omega)]
          exact stop1 p (Nat.zero_le _) ⟨i, Nat.zero_le _, hi, hbad⟩
        · rw [stop2 j p hlt (fun i hi1 hi2 => hrows i (by omega) hi2) ⟨i, hi, hbad⟩]
          exact fr1 (j : Int) (p : Int) (Or.inl (by omega))
    · refine ⟨g, ?_, fun _ _ _ => rfl, ?_, ?_⟩
      · rw [rowsLoop, if_neg hg]
      · intro j p hj hrows _
        exact absurd (hrows n le_rfl hj) hg
      · intro j p hj hrows _
        exact absurd (hrows n le_rfl hj) hg

/-- The kernel on any buffer: in a row `q` reached with the row test holding at
every row up to `q`, the cell of column `p` holds the gray value of its sample
point `(xAt p, yAt q)` when the column test held at every column up to `p`, and
is untouched when that test failed at one of them. -/
theorem mandelbrot_cells (k : Consts) (m : Mandelbrot) :
    ∃ g, mandelbrot k m = some { m with i := g } ∧
      (∀ q p : Nat, (∀ i, i ≤ q → rowOk k m i) → (∀ i, i ≤ p → colOk k m i) →
        g (q : Int) (p : Int) =
          some (gray k (iterate k (rOfD (xAt k m.tl.a p) (yAt k m.tl.b q))) m.invert)) ∧
      (∀ q p : Nat, (∀ i, i ≤ q → rowOk k m i) → (∃ i, i ≤ p ∧ ¬ colOk k m i) →
        g (q : Int) (p : Int) = m.i (q : Int) (p : Int)) := by
  obtain ⟨g, hg, _, val, stop⟩ := rowsLoop_cells k m _ 0 m.i rfl
  have hg' : rowsLoop k m m.tl.b 0 m.i = some g := hg
  refine ⟨g, by simp [mandelbrot, hg'], ?_, ?_⟩
  · intro q p hrows hcols
    exact val q p (Nat.zero_le _) (fun i _ hi => hrows i hi) hcols
  · intro q p hrows hex
    exact stop q p (Nat.zero_le _) (fun i _ hi => hrows i hi) hex

/-! ## The drivers `serial` and `parallel` -/

/-- The abscissas depend on the constants through the step only. -/
theorem xAt_congr (k k' : Consts) (h : stepD k = stepD k') (x0 : ℚ) (n : Nat) :
    xAt k x0 n = xAt k' x0 n := by
  induction n with
  | zero => rfl
  | succ n ih =>
    show fadd (xAt k x0 n) (stepD k) = fadd (xAt k' x0 n) (stepD k')
    rw [ih, h]

/-- The ordinates depend on the constants through the step only. -/
theorem yAt_congr (k k' : Consts) (h : stepD k = stepD k') (y0 : ℚ) (n : Nat) :
    yAt k y0 n = yAt k' y0 n := by
  induction n with
  | zero => rfl
  | succ n ih =>
    show fsub (yAt k y0 n) (stepD k) = fsub (yAt k' y0 n) (stepD k')
    rw [ih, h]

/-- A buffer of `mNew` run through the kernel, for a step `D > 0` and sizes `w`
and `h` in the `int` range: the sizes, corners and flag are those of `mNew`,
and every cell the loops reach holds the gray value of its sample point. -/
theorem buffer_of_rect (k : Consts) (tl br : Complex) (inv : Bool) (hD : 0 < stepD k) (w h : Int)
    (hw : ⌊fdiv (fabs (cSub tl br).a) (stepD k)⌋ = w)
    (hh : ⌊fdiv (fabs (cSub tl br).b) (stepD k)⌋ = h)
    (hwmax : w ≤ INT_MAX) (hhmax : h ≤ INT_MAX) :
    ∃ m b, mNew k tl br inv = some m ∧ mandelbrot k m = some b ∧ b.w = w ∧ b.h = h ∧
      b.tl = tl ∧ b.br = br ∧ b.invert = inv ∧
      (∀ q p : Nat, (∀ i, i ≤ q → br.b ≤ yAt k tl.b i ∧ (i : Int) < h) →
        (∀ i, i ≤ p → xAt k tl.a i ≤ br.a ∧ (i : Int) < w) →
        b.i (q : Int) (p : Int) =
          some (gray k (iterate k (rOfD (xAt k tl.a p) (yAt k tl.b q))) inv)) := by
  have hm := mNew_pos k tl br inv hD (by rw [hw]; exact hwmax) (by rw [hh]; exact hhmax)
  obtain ⟨g, hg, hval, _⟩ := mandelbrot_cells k
    { tl := tl, br := br, w := ⌊fdiv (fabs (cSub tl br).a) (stepD k)⌋,
      h := ⌊fdiv (fabs (cSub tl br).b) (stepD k)⌋, i := fun _ _ => none, invert := inv }
  refine ⟨_, _, hm, hg, hw, hh, rfl, rfl, rfl, ?_⟩
  intro q p hrows hcols
  exact hval q p
    (fun i hi => ⟨(hrows i hi).1, by rw [hh]; exact (hrows i hi).2⟩)
    (fun i hi => ⟨(hcols i hi).1, by rw [hw]; exact (hcols i hi).2⟩)

/-- The four bands of `parallel` for `NUM_THREADS = 4`: the patch height is 1
and `mm` holds the bands 0 to 3 in this order. -/
theorem parallelBuffers_four (k : Consts) (h4 : k.NUM_THREADS = 4) (b0 b1 b2 b3 : Mandelbrot)
    (h0 : band k (rOfD (-3) 2) (rOfD 1 (-2)) 1 0 = some b0)
    (h1 : band k (rOfD (-3) 2) (rOfD 1 (-2)) 1 1 = some b1)
    (h2 : band k (rOfD (-3) 2) (rOfD 1 (-2)) 1 2 = some b2)
    (h3 : band k (rOfD (-3) 2) (rOfD 1 (-2)) 1 3 = some b3) :
    parallelBuffers k = some [b0, b1, b2, b3] := by
  have hpy : fdiv (cSub (rOfD (-3) 2) (rOfD 1 (-2))).b ((4 : Nat) : ℚ) = 1 := by decide!
  have hr : List.range 4 = [0, 1, 2, 3] := by decide
  unfold parallelBuffers
  simp only [h4]
  rw [hpy, hr]
  simp only [List.mapM_cons, List.mapM_nil]
  simp [h0, h1, h2, h3]

/-- The corners of the fixed rectangle. -/
theorem full_corners : rOfD (-3) 2 = ⟨-3, 2⟩ ∧ rOfD 1 (-2) = ⟨1, -2⟩ := by
  decide!

/-- The corners of the four bands of the fixed rectangle with the patch height
1: band `t` lies between the ordinates `2 - t` and `1 - t`. -/
theorem patch_corners (t : Nat) (ht : t < 4) :
    patchTl (rOfD (-3) 2) 1 t = ⟨-3, 2 - (t : ℚ)⟩ ∧
      patchBr (rOfD (-3) 2) (rOfD 1 (-2)) 1 t = ⟨1, 1 - (t : ℚ)⟩ := by
  interval_cases t <;> exact ⟨by decide!, by decide!⟩

/-- Band `t < 4` of `parallel` for a step `D > 0` at which the `double`
quotients `4 / D` and `1 / D` have the floors `w` and `h`: a buffer of that
size, not inverted, between the ordinates `2 - t` and `1 - t`, in which every
cell the loops reach holds the gray value of its sample point. -/
theorem band_run (k : Consts) (hD : 0 < stepD k) (t : Nat) (ht : t < 4) (w h : Int)
    (hw : ⌊fdiv 4 (stepD k)⌋ = w) (hh : ⌊fdiv 1 (stepD k)⌋ = h)
    (hwmax : w ≤ INT_MAX) (hhmax : h ≤ INT_MAX) :
    ∃ b, band k (rOfD (-3) 2) (rOfD 1 (-2)) 1 t = some b ∧ b.w = w ∧ b.h = h ∧
      b.invert = false ∧
      (∀ q p : Nat, (∀ i, i ≤ q → 1 - (t : ℚ) ≤ yAt k (2 - (t : ℚ)) i ∧ (i : Int) < h) →
        (∀ i, i ≤ p → xAt k (-3) i ≤ 1 ∧ (i : Int) < w) →
        b.i (q : Int) (p : Int) =
          some (gray k (iterate k (rOfD (xAt k (-3) p) (yAt k (2 - (t : ℚ)) q))) false)) := by
  obtain ⟨c1, c2⟩ := patch_corners t ht
  have sa : fabs (cSub (⟨-3, 2 - (t : ℚ)⟩ : Complex) ⟨1, 1 - (t : ℚ)⟩).a = 4 := by
    simp only [cSub, fabs]
    norm_num [abs_of_neg]
  have sb : fabs (cSub (⟨-3, 2 - (t : ℚ)⟩ : Complex) ⟨1, 1 - (t : ℚ)⟩).b = 1 := by
    simp only [cSub, fabs]
    norm_num
  obtain ⟨m, b, hm, hb, bw, bh, _, _, binv, hc⟩ := buffer_of_rect k
    ⟨-3, 2 - (t : ℚ)⟩ ⟨1, 1 - (t : ℚ)⟩ false hD w h
    (by rw [sa]; exact hw) (by rw [sb]; exact hh) hwmax hhmax
  refine ⟨b, ?_, bw, bh, binv, hc⟩
  simp only [band, c1, c2]
  rw [hm]
  exact hb

/-- The buffer of `serial` for a step `D > 0` at which the `double` quotient
`4 / D` has the floor `w`: a buffer `w` by `w`, inverted, in which every cell
the loops reach holds the gray value of its sample point. -/
theorem serial_run (k : Consts) (hD : 0 < stepD k) (w : Int) (hw : ⌊fdiv 4 (stepD k)⌋ = w)
    (hwmax : w ≤ INT_MAX) :
    ∃ S, serialBuffer k = some S ∧ S.w = w ∧ S.h = w ∧ S.invert = true ∧
      (∀ q p : Nat, (∀ i, i ≤ q → -2 ≤ yAt k 2 i ∧ (i : Int) < w) →
        (∀ i, i ≤ p → xAt k (-3) i ≤ 1 ∧ (i : Int) < w) →
        S.i (q : Int) (p : Int) =
          some (gray k (iterate k (rOfD (xAt k (-3) p) (yAt k 2 q))) true)) := by
  obtain ⟨c1, c2⟩ := full_corners
  have sa : fabs (cSub (⟨-3, 2⟩ : Complex) ⟨1, -2⟩).a = 4 := by
    simp only [cSub, fabs]
    norm_num [abs_of_neg]
  have sb : fabs (cSub (⟨-3, 2⟩ : Complex) ⟨1, -2⟩).b = 4 := by
    simp only [cSub, fabs]
    norm_num
  obtain ⟨m, b, hm, hb, bw, bh, _, _, binv, hc⟩ := buffer_of_rect k ⟨-3, 2⟩ ⟨1, -2⟩
    true hD w w (by rw [sa]; exact hw) (by rw [sb]; exact hw) hwmax hwmax
  refine ⟨b, ?_, bw, bh, binv, hc⟩
  simp only [serialBuffer, c1, c2]
  rw [hm]
  exact hb

/-- The sizes `parallel` passes to `save`, for a step `D > 0` at which the
`double` quotient `4 / D` has the floor `w`. -/
theorem parallelDims_eq (k : Consts) (hD : 0 < stepD k) (w : Int)
    (hw : ⌊fdiv 4 (stepD k)⌋ = w) (hwmax : w ≤ INT_MAX) : parallelDims k = some (w, w) := by
  obtain ⟨c1, c2⟩ := full_corners
  have sa : fabs (cSub (⟨-3, 2⟩ : Complex) ⟨1, -2⟩).a = 4 := by
    simp only [cSub, fabs]
    norm_num [abs_of_neg]
  have sb : fabs (cSub (⟨-3, 2⟩ : Complex) ⟨1, -2⟩).b = 4 := by
    simp only [cSub, fabs]
    norm_num
  simp only [parallelDims, c1, c2]
  rw [intOfQuot_pos _ _ hD (by rw [sa, hw]; exact hwmax),
    intOfQuot_pos _ _ hD (by rw [sb, hw]; exact hwmax), sa, sb, hw]

/-- Every row `save` prints ends with one end of line. -/
theorem count_eol_saveRow (m : Mandelbrot) (w y : Int) :
    (saveRow m w y).count Out.eol = 1 := by
  unfold saveRow
  rw [List.count_append]
  have h0 : ((List.range w.toNat).map (fun x => Out.cell (m.i y (x : Int)))).count Out.eol = 0 := by
    rw [List.count_eq_zero]
    intro hmem
    rw [List.mem_map] at hmem
    obtain ⟨_, _, h⟩ := hmem
    exact Out.noConfusion h
  rw [h0]
  rfl

/-- The rows `save` prints for a buffer are as many as its height. -/
theorem count_eol_saveBuffer (m : Mandelbrot) (w : Int) :
    (saveBuffer m w).count Out.eol = m.h.toNat := by
  unfold saveBuffer
  have key : ∀ l : List Nat,
      (l.flatMap (fun y => saveRow m w (y : Int))).count Out.eol = l.length := by
    intro l
    induction l with
    | nil => rfl
    | cons a l ih =>
      rw [List.flatMap_cons, List.count_append, ih, count_eol_saveRow, List.length_cons]
      omega
  rw [key, List.length_range]

/-! ## Escape-time evaluator and grayscale mapping: the verified statements -/

/-- C2: for every point `c` and every cap `I ≥ 0`, the loop of `iterate` stops
after `n ≤ I` applications of `z ↦ z² + c` on the `n`-th orbit point, `iterate`
returns that `n`, a count in `[0, I]`, and a count below `I` is returned only
when the modulus of the `n`-th orbit point is at least the escape radius `R`. -/
theorem iterate_count_and_escape (k : Consts) (c : Complex) (hI : 0 ≤ k.I) :
    ∃ n : Nat, iterLoop k c (rOfD 0 0) 0 = (orbit c n, (n : Int)) ∧ iterate k c = (n : Int) ∧
      0 ≤ iterate k c ∧ iterate k c ≤ k.I ∧
      (iterate k c < k.I →
        (k.R : ℝ) ≤ Real.sqrt (((orbit c n).a : ℝ) ^ 2 + ((orbit c n).b : ℝ) ^ 2)) := by
  obtain ⟨n, hloop, hn, hcap, hesc⟩ := iterate_orbit k c hI
  refine ⟨n, hloop, hn, by rw [hn]; omega, by rw [hn]; exact hcap, ?_⟩
  intro hlt
  rw [hn] at hlt
  have hf := hesc hlt
  by_contra hcon
  have := (cModLt_iff_sqrt (orbit c n) k.R).mpr (not_le.mp hcon)
  rw [hf] at this
  exact Bool.noConfusion this

/-- Instance of C2 at the point `(1, 1)` with the example constants. -/
theorem iterate_count_and_escape_witness :
    ∃ n : Nat, iterLoop exampleConsts (rOfD 1 1) (rOfD 0 0) 0 = (orbit (rOfD 1 1) n, (n : Int)) ∧
      iterate exampleConsts (rOfD 1 1) = (n : Int) ∧
      0 ≤ iterate exampleConsts (rOfD 1 1) ∧ iterate exampleConsts (rOfD 1 1) ≤ exampleConsts.I ∧
      (iterate exampleConsts (rOfD 1 1) < exampleConsts.I →
        (exampleConsts.R : ℝ) ≤
          Real.sqrt (((orbit (rOfD 1 1) n).a : ℝ) ^ 2 + ((orbit (rOfD 1 1) n).b : ℝ) ^ 2)) :=
  iterate_count_and_escape exampleConsts (rOfD 1 1) (by decide)

/-- C3: for every count `i` with `0 ≤ i ≤ I` and `I > 0` (with `L = 255`),
`gray(i, false) + gray(i, true) = 255`: `gray(i, true)` is 255 minus
`gray(i, false)`, and `gray(i, false)` is the truncating quotient `i * 255 / I`
(of the exact product when it fits an `int`). -/
theorem gray_sum (k : Consts) (i : Int) (hI : 0 < k.I) (h0 : 0 ≤ i) (h1 : i ≤ k.I) :
    gray k i false + gray k i true = 255 ∧
      gray k i true = 255 - gray k i false ∧
      gray k i false = Int.tdiv (wrap32 (i * 255)) k.I ∧
      (i * 255 ≤ INT_MAX → gray k i false = Int.tdiv (i * 255) k.I) := by
  have ht := gray_true k i hI h0 h1
  have hf := gray_false k i
  have hL : L = 255 := rfl
  rw [hL] at ht hf
  refine ⟨by rw [ht, hf]; omega, by rw [ht, hf], hf, ?_⟩
  intro hov
  rw [hf, wrap32_of_int _ (by unfold INT_MIN; omega) hov]

/-- Instance of C3 at `i = 333` with the cap 1000. -/
theorem gray_sum_witness :
    gray exampleConsts 333 false + gray exampleConsts 333 true = 255 ∧
      gray exampleConsts 333 true = 255 - gray exampleConsts 333 false ∧
      gray exampleConsts 333 false = Int.tdiv (wrap32 (333 * 255)) exampleConsts.I ∧
      (333 * 255 ≤ INT_MAX → gray exampleConsts 333 false = Int.tdiv (333 * 255) exampleConsts.I) :=
  gray_sum exampleConsts 333 (by decide) (by decide) (by decide)

/-- C4: every intensity lies in `[0, 255]`: for `I > 0`, every `i` with
`0 ≤ i ≤ I` whose product `i * 255` does not overflow a 32-bit `int` and either
flag, `0 ≤ gray(i, inv) ≤ 255`; `gray(0, false) = 0`; `gray(I, false) = 255`;
and with the range of `iterate` the bounds hold for `gray(iterate(c), inv)` at
every point `c`. -/
theorem gray_range (k : Consts) (hI : 0 < k.I) :
    (∀ (i : Int) (inv : Bool), 0 ≤ i → i ≤ k.I → i * 255 ≤ INT_MAX →
        0 ≤ gray k i inv ∧ gray k i inv ≤ 255) ∧
      gray k 0 false = 0 ∧
      (k.I * 255 ≤ INT_MAX → gray k k.I false = 255) ∧
      (∀ (c : Complex) (inv : Bool), iterate k c * 255 ≤ INT_MAX →
        0 ≤ gray k (iterate k c) inv ∧ gray k (iterate k c) inv ≤ 255) := by
  have hmain : ∀ (i : Int) (inv : Bool), 0 ≤ i → i ≤ k.I → i * 255 ≤ INT_MAX →
      0 ≤ gray k i inv ∧ gray k i inv ≤ 255 := by
    intro i inv h0 h1 hov
    obtain ⟨e, a, b⟩ := gray_quot_exact k i hI h0 h1 hov
    cases inv
    · rw [gray_false, e]
      exact ⟨a, b⟩
    · rw [gray_true k i hI h0 h1, e]
      constructor <;> omega
  refine ⟨hmain, ?_, fun hov => (gray_cap k hI hov).1, ?_⟩
  · rw [gray_false]
    simp [wrap32, Int.zero_tdiv]
  · intro c inv hov
    obtain ⟨a, b⟩ := iterate_range k c hI.le
    exact hmain _ inv a b hov

/-- Instance of C4 with the cap 1000. -/
theorem gray_range_witness :
    (∀ (i : Int) (inv : Bool), 0 ≤ i → i ≤ exampleConsts.I → i * 255 ≤ INT_MAX →
        0 ≤ gray exampleConsts i inv ∧ gray exampleConsts i inv ≤ 255) ∧
      gray exampleConsts 0 false = 0 ∧
      (exampleConsts.I * 255 ≤ INT_MAX → gray exampleConsts exampleConsts.I false = 255) ∧
      (∀ (c : Complex) (inv : Bool), iterate exampleConsts c * 255 ≤ INT_MAX →
        0 ≤ gray exampleConsts (iterate exampleConsts c) inv ∧
          gray exampleConsts (iterate exampleConsts c) inv ≤ 255) :=
  gray_range exampleConsts (by decide)

/-! ## Region buffer and band kernel: the verified statements -/

/-- C7: for every buffer `m` returned by `mNew` (any rectangle, any step) the
kernel `mandelbrot` terminates without a store outside rows `0 .. h-1` and
columns `0 .. w-1`: it returns the buffer with a new grid, in which every cell
outside that range is as it was.  The cap `I` is positive, as `gray` divides
by it. -/
theorem mandelbrot_stores_in_bounds (k : Consts) (tl br : Complex) (inv : Bool) (m : Mandelbrot)
    (_hI : 0 < k.I) (_hm : mNew k tl br inv = some m) :
    ∃ g, mandelbrot k m = some { m with i := g } ∧
      ∀ q p, ¬ (0 ≤ q ∧ q < m.h ∧ 0 ≤ p ∧ p < m.w) → g q p = m.i q p :=
  mandelbrot_total k m

/-- Instance of C7 at the rectangle from `(0, 1)` to `(1, 0)` with the step
0.3, whose span is no multiple of the step. -/
theorem mandelbrot_stores_in_bounds_witness :
    ∃ m g, mNew { D := 3 / 10, I := 1000, R := 2, NUM_THREADS := 4 } (rOfD 0 1) (rOfD 1 0) true
        = some m ∧ m.w = 3 ∧ m.h = 3 ∧
      mandelbrot { D := 3 / 10, I := 1000, R := 2, NUM_THREADS := 4 } m = some { m with i := g } ∧
      ∀ q p, ¬ (0 ≤ q ∧ q < m.h ∧ 0 ≤ p ∧ p < m.w) → g q p = m.i q p := by
  have e1 : ⌊fdiv (fabs (cSub (rOfD 0 1) (rOfD 1 0)).a)
      (stepD { D := 3 / 10, I := 1000, R := 2, NUM_THREADS := 4 })⌋ = 3 := by decide!
  have e2 : ⌊fdiv (fabs (cSub (rOfD 0 1) (rOfD 1 0)).b)
      (stepD { D := 3 / 10, I := 1000, R := 2, NUM_THREADS := 4 })⌋ = 3 := by decide!
  have hm := mNew_pos { D := 3 / 10, I := 1000, R := 2, NUM_THREADS := 4 } (rOfD 0 1) (rOfD 1 0)
    true (by decide!) (by rw [e1]; decide) (by rw [e2]; decide)
  obtain ⟨g, hg, hout⟩ := mandelbrot_stores_in_bounds _ _ _ _ _ (by decide) hm
  exact ⟨_, g, hm, e1, e2, hg, hout⟩

/-- C10, as stated, fails, in two ways.  With the step 0.01, the cap 2 and
the escape radius 2, over the rectangle from `(-3, 0)` to `(1, -1)`, the
kernel stores 127 in row 0, column 100: it samples at the abscissa reached by
100 steps `x += D`, which lies left of `-2` (count 1), where the point
`(tl.a + 100 * D, tl.b - 0 * D)` lies right of `-2` (count 2, gray
value 255).  And for the rectangle from `(2^54, 0)` to `(2^54 + 24, -3)` with
the step 3 the buffer is 8 cells wide and 1 row high, and the kernel leaves
row 0, column 7 without a stored value: each `x += D` moves the abscissa by 4,
to `2^54 + 28` at column 7, where the test `x <= br.a` fails. -/
theorem mandelbrot_cell_counterexamples :
    (∃ m g, mNew capTwoConsts (rOfD (-3) 0) (rOfD 1 (-1)) false = some m ∧
      m.w = 400 ∧ m.h = 100 ∧ mandelbrot capTwoConsts m = some { m with i := g } ∧
      g 0 100 = some 127 ∧
      gray capTwoConsts (iterate capTwoConsts
        ⟨(rOfD (-3) 0).a + 100 * stepD capTwoConsts, (rOfD (-3) 0).b - 0 * stepD capTwoConsts⟩)
        false = 255) ∧
    (∃ m g, mNew { D := 3, I := 1000, R := 2, NUM_THREADS := 4 } (rOfD 18014398509481984 0)
        (rOfD 18014398509482008 (-3)) true = some m ∧ m.w = 8 ∧ m.h = 1 ∧
      m.tl = ⟨18014398509481984, 0⟩ ∧ m.br = ⟨18014398509482008, -3⟩ ∧
      mandelbrot { D := 3, I := 1000, R := 2, NUM_THREADS := 4 } m = some { m with i := g } ∧
      xAt { D := 3, I := 1000, R := 2, NUM_THREADS := 4 } 18014398509481984 7
        = 18014398509482012 ∧
      g 0 7 = none) := by
  constructor
  · have e1 : ⌊fdiv (fabs (cSub (rOfD (-3) 0) (rOfD 1 (-1))).a) (stepD capTwoConsts)⌋ = 400 := by
      decide!
    have e2 : ⌊fdiv (fabs (cSub (rOfD (-3) 0) (rOfD 1 (-1))).b) (stepD capTwoConsts)⌋ = 100 := by
      decide!
    have c1 : rOfD (-3) 0 = ⟨-3, 0⟩ := by decide!
    have c2 : rOfD 1 (-1) = ⟨1, -1⟩ := by decide!
    have hm := mNew_pos capTwoConsts (rOfD (-3) 0) (rOfD 1 (-1)) false (by decide!)
      (by rw [e1]; decide) (by rw [e2]; decide)
    obtain ⟨g, hg, hval, _⟩ := mandelbrot_cells capTwoConsts
      { tl := rOfD (-3) 0, br := rOfD 1 (-1),
        w := ⌊fdiv (fabs (cSub (rOfD (-3) 0) (rOfD 1 (-1))).a) (stepD capTwoConsts)⌋,
        h := ⌊fdiv (fabs (cSub (rOfD (-3) 0) (rOfD 1 (-1))).b) (stepD capTwoConsts)⌋,
        i := fun _ _ => none, invert := false }
    have hcell := hval 0 100
      (by
        intro i hi
        have hi0 : i = 0 := by omega
        subst hi0
        refine ⟨?_, ?_⟩
        · show (rOfD 1 (-1)).b ≤ (rOfD (-3) 0).b
          rw [c1, c2]
          norm_num
        · show ((0 : Nat) : Int) <
            ⌊fdiv (fabs (cSub (rOfD (-3) 0) (rOfD 1 (-1))).b) (stepD capTwoConsts)⌋
          rw [e2]
          decide)
      (by
        intro i hi
        refine ⟨?_, ?_⟩
        · show xAt capTwoConsts (rOfD (-3) 0).a i ≤ (rOfD 1 (-1)).a
          rw [c1, c2]
          exact xsLe_sound capTwoConsts 1 100 (-3) (by decide!) i hi
        · show (i : Int) <
            ⌊fdiv (fabs (cSub (rOfD (-3) 0) (rOfD 1 (-1))).a) (stepD capTwoConsts)⌋
          rw [e1]
          omega)
    have hfar : iterate capTwoConsts
        (rOfD (xAt capTwoConsts (rOfD (-3) 0).a 100) (yAt capTwoConsts (rOfD (-3) 0).b 0)) = 1 := by
      unfold iterate
      rw [iterLoop, if_pos (by decide!), iterLoop, if_neg (by decide!)]
      rfl
    have hnear : iterate capTwoConsts
        ⟨(rOfD (-3) 0).a + 100 * stepD capTwoConsts,
          (rOfD (-3) 0).b - 0 * stepD capTwoConsts⟩ = 2 := by
      unfold iterate
      rw [iterLoop, if_pos (by decide!), iterLoop, if_pos (by decide!), iterLoop,
        if_neg (by decide!)]
      rfl
    refine ⟨_, g, hm, e1, e2, hg, ?_, ?_⟩
    · have h : g ((0 : Nat) : Int) ((100 : Nat) : Int) = some 127 := by
        rw [hcell]
        show some (gray capTwoConsts (iterate capTwoConsts
          (rOfD (xAt capTwoConsts (rOfD (-3) 0).a 100) (yAt capTwoConsts (rOfD (-3) 0).b 0)))
          false) = some 127
        rw [hfar]
        decide
      exact h
    · rw [hnear]
      decide
  · have e1 : ⌊fdiv (fabs (cSub (rOfD 18014398509481984 0) (rOfD 18014398509482008 (-3))).a)
        (stepD { D := 3, I := 1000, R := 2, NUM_THREADS := 4 })⌋ = 8 := by decide!
    have e2 : ⌊fdiv (fabs (cSub (rOfD 18014398509481984 0) (rOfD 18014398509482008 (-3))).b)
        (stepD { D := 3, I := 1000, R := 2, NUM_THREADS := 4 })⌋ = 1 := by decide!
    have c1 : rOfD 18014398509481984 0 = ⟨18014398509481984, 0⟩ := by decide!
    have c2 : rOfD 18014398509482008 (-3) = ⟨18014398509482008, -3⟩ := by decide!
    have hx : xAt { D := 3, I := 1000, R := 2, NUM_THREADS := 4 } 18014398509481984 7
        = 18014398509482012 := by decide!
    have hm := mNew_pos { D := 3, I := 1000, R := 2, NUM_THREADS := 4 }
      (rOfD 18014398509481984 0) (rOfD 18014398509482008 (-3)) true (by decide!)
      (by rw [e1]; decide) (by rw [e2]; decide)
    obtain ⟨g, hg, _, hstop⟩ := mandelbrot_cells { D := 3, I := 1000, R := 2, NUM_THREADS := 4 }
      { tl := rOfD 18014398509481984 0, br := rOfD 18014398509482008 (-3),
        w := ⌊fdiv (fabs (cSub (rOfD 18014398509481984 0) (rOfD 18014398509482008 (-3))).a)
          (stepD { D := 3, I := 1000, R := 2, NUM_THREADS := 4 })⌋,
        h := ⌊fdiv (fabs (cSub (rOfD 18014398509481984 0) (rOfD 18014398509482008 (-3))).b)
          (stepD { D := 3, I := 1000, R := 2, NUM_THREADS := 4 })⌋,
        i := fun _ _ => none, invert := true }
    refine ⟨_, g, hm, e1, e2, c1, c2, hg, hx, ?_⟩
    have h07 := hstop 0 7
      (by
        intro i hi
        have hi0 : i = 0 := by omega
        subst hi0
        refine ⟨?_, ?_⟩
        · show (rOfD 18014398509482008 (-3)).b ≤ (rOfD 18014398509481984 0).b
          rw [c1, c2]
          norm_num
        · show ((0 : Nat) : Int) < ⌊fdiv (fabs (cSub (rOfD 18014398509481984 0)
            (rOfD 18014398509482008 (-3))).b)
            (stepD { D := 3, I := 1000, R := 2, NUM_THREADS := 4 })⌋
          rw [e2]
          decide)
      ⟨7, le_rfl, by
        rintro ⟨hle, _⟩
        have hle' : xAt { D := 3, I := 1000, R := 2, NUM_THREADS := 4 }
            (rOfD 18014398509481984 0).a 7 ≤ (rOfD 18014398509482008 (-3)).a := hle
        rw [c1, c2, hx] at hle'
        norm_num at hle'⟩
    exact h07

/-- C10, amended: for every buffer `m = mNew(tl, br, inv)` over a rectangle of
`double`s the kernel `mandelbrot(m)` returns the buffer with a grid in which
every cell of a row `q` and column `p` that the loops reach (the test
`y >= br.b && q < h` held at the rows `0 .. q` and the test
`x <= br.a && p < w` at the columns `0 .. p`) equals
`gray(iterate((x_p, y_q)), inv)`, where `x_p` is `tl.a` after `p` steps
`x += D` and `y_q` is `tl.b` after `q` steps `y -= D` in `double` arithmetic;
every row starts again from `tl.a`.  The cap `I` is positive, as `gray` divides
by it. -/
theorem mandelbrot_cells_reached (k : Consts) (tl br : Complex) (inv : Bool) (m : Mandelbrot)
    (_hI : 0 < k.I) (_htl : isDouble tl.a ∧ isDouble tl.b) (_hbr : isDouble br.a ∧ isDouble br.b)
    (hm : mNew k tl br inv = some m) :
    ∃ g, mandelbrot k m = some { m with i := g } ∧
      ∀ q p : Nat, (∀ i, i ≤ q → br.b ≤ yAt k tl.b i ∧ (i : Int) < m.h) →
        (∀ i, i ≤ p → xAt k tl.a i ≤ br.a ∧ (i : Int) < m.w) →
        g (q : Int) (p : Int) =
          some (gray k (iterate k (rOfD (xAt k tl.a p) (yAt k tl.b q))) inv) := by
  obtain ⟨htl, hbr, hinv, _⟩ := mNew_fields k tl br inv m hm
  obtain ⟨g, hg, hval, _⟩ := mandelbrot_cells k m
  refine ⟨g, hg, ?_⟩
  intro q p hrows hcols
  have h := hval q p
    (fun i hi => by
      unfold rowOk
      rw [htl, hbr]
      exact hrows i hi)
    (fun i hi => by
      unfold colOk
      rw [htl, hbr]
      exact hcols i hi)
  rw [h, htl, hinv]

/-- Instance of the amended C10 at the rectangle from `(0, 1)` to `(1, 0)` with
the step 0.3: a grid 3 by 3. -/
theorem mandelbrot_cells_reached_witness :
    ∃ m g, mNew { D := 3 / 10, I := 1000, R := 2, NUM_THREADS := 4 } (rOfD 0 1) (rOfD 1 0) true
        = some m ∧ m.w = 3 ∧ m.h = 3 ∧
      mandelbrot { D := 3 / 10, I := 1000, R := 2, NUM_THREADS := 4 } m = some { m with i := g } ∧
      ∀ q p : Nat,
        (∀ i, i ≤ q → (rOfD 1 0).b ≤
          yAt { D := 3 / 10, I := 1000, R := 2, NUM_THREADS := 4 } (rOfD 0 1).b i ∧
            (i : Int) < m.h) →
        (∀ i, i ≤ p →
          xAt { D := 3 / 10, I := 1000, R := 2, NUM_THREADS := 4 } (rOfD 0 1).a i ≤ (rOfD 1 0).a ∧
            (i : Int) < m.w) →
        g (q : Int) (p : Int) =
          some (gray { D := 3 / 10, I := 1000, R := 2, NUM_THREADS := 4 }
            (iterate { D := 3 / 10, I := 1000, R := 2, NUM_THREADS := 4 }
              (rOfD (xAt { D := 3 / 10, I := 1000, R := 2, NUM_THREADS := 4 } (rOfD 0 1).a p)
                (yAt { D := 3 / 10, I := 1000, R := 2, NUM_THREADS := 4 } (rOfD 0 1).b q)))
            true) := by
  have e1 : ⌊fdiv (fabs (cSub (rOfD 0 1) (rOfD 1 0)).a)
      (stepD { D := 3 / 10, I := 1000, R := 2, NUM_THREADS := 4 })⌋ = 3 := by decide!
  have e2 : ⌊fdiv (fabs (cSub (rOfD 0 1) (rOfD 1 0)).b)
      (stepD { D := 3 / 10, I := 1000, R := 2, NUM_THREADS := 4 })⌋ = 3 := by decide!
  have hm := mNew_pos { D := 3 / 10, I := 1000, R := 2, NUM_THREADS := 4 } (rOfD 0 1) (rOfD 1 0)
    true (by decide!) (by rw [e1]; decide) (by rw [e2]; decide)
  obtain ⟨g, hg, hc⟩ := mandelbrot_cells_reached _ _ _ _ _ (by decide)
    (by unfold isDouble; decide!) (by unfold isDouble; decide!) hm
  exact ⟨_, g, hm, e1, e2, hg, hc⟩

/-! ## Drivers and emitter: behaviour at the failing inputs -/

/-- C1 fails on the code: with the step `0.01` and four bands, for every cap
and escape radius, the serial buffer samples row 100, column 300 at
`(x, 1 - 2^-50)`, after 100 steps `y -= D` from 2, while band `100 / 100 = 1`
samples its row `100 mod 100 = 0`, column 300 at `(x, 1)`, with the same
abscissa `x`: the two pixels do not come from the same sample point. -/
theorem serial_band_samples_differ (k : Consts) (hD : k.D = 1 / 100)
    (hN : k.NUM_THREADS = 4) :
    ∃ S P b, serialBuffer k = some S ∧ parallelBuffers k = some P ∧ P[100 / 100]? = some b ∧
      S.invert = true ∧ b.invert = false ∧
      S.i 100 300 = some (gray k (iterate k
        (rOfD (-5671 / 288230376151711744) (1125899906842623 / 1125899906842624))) true) ∧
      b.i ((100 % 100 : Nat) : Int) 300 = some (gray k (iterate k
        (rOfD (-5671 / 288230376151711744) 1)) false) ∧
      rOfD (-5671 / 288230376151711744) (1125899906842623 / 1125899906842624) ≠
        rOfD (-5671 / 288230376151711744) 1 := by
  have hk : stepD k = stepD exampleConsts := by
    unfold stepD
    rw [hD]
    rfl
  have hpos : 0 < stepD k := by rw [hk]; decide!
  have f4 : ⌊fdiv 4 (stepD k)⌋ = 400 := by rw [hk]; decide!
  have f1 : ⌊fdiv 1 (stepD k)⌋ = 100 := by rw [hk]; decide!
  have hxs : ∀ i, i ≤ 300 → xAt k (-3) i ≤ 1 := by
    intro i hi
    rw [xAt_congr k exampleConsts hk]
    exact xsLe_sound exampleConsts 1 300 (-3) (by decide!) i hi
  have hys : ∀ i, i ≤ 100 → -2 ≤ yAt k 2 i := by
    intro i hi
    rw [yAt_congr k exampleConsts hk]
    exact ysGe_sound exampleConsts (-2) 100 2 (by decide!) i hi
  have hx300 : xAt k (-3) 300 = -5671 / 288230376151711744 := by
    rw [xAt_congr k exampleConsts hk]
    decide!
  have hy100 : yAt k 2 100 = 1125899906842623 / 1125899906842624 := by
    rw [yAt_congr k exampleConsts hk]
    decide!
  obtain ⟨S, hS, _, _, Sinv, Sc⟩ := serial_run k hpos 400 f4 (by decide)
  obtain ⟨b0, hb0, _⟩ := band_run k hpos 0 (by decide) 400 100 f4 f1 (by decide) (by decide)
  obtain ⟨b1, hb1, _, _, inv1, c1⟩ :=
    band_run k hpos 1 (by decide) 400 100 f4 f1 (by decide) (by decide)
  obtain ⟨b2, hb2, _⟩ := band_run k hpos 2 (by decide) 400 100 f4 f1 (by decide) (by decide)
  obtain ⟨b3, hb3, _⟩ := band_run k hpos 3 (by decide) 400 100 f4 f1 (by decide) (by decide)
  have hser := Sc 100 300 (fun i hi => ⟨hys i hi, by omega⟩) (fun i hi => ⟨hxs i hi, by omega⟩)
  have hband := c1 0 300
    (fun i hi => by
      have hi0 : i = 0 := by omega
      subst hi0
      refine ⟨?_, by decide⟩
      show (1 : ℚ) - ((1 : Nat) : ℚ) ≤ 2 - ((1 : Nat) : ℚ)
      norm_num)
    (fun i hi => ⟨hxs i hi, by omega⟩)
  rw [hx300, hy100] at hser
  rw [hx300] at hband
  have hy0 : yAt k (2 - ((1 : Nat) : ℚ)) 0 = 1 := by
    show (2 : ℚ) - ((1 : Nat) : ℚ) = 1
    norm_num
  rw [hy0] at hband
  refine ⟨S, [b0, b1, b2, b3], b1, hS,
    parallelBuffers_four k hN b0 b1 b2 b3 hb0 hb1 hb2 hb3, rfl, Sinv, inv1, hser, hband, ?_⟩
  decide!

/-- Instance of `serial_band_samples_differ` with the example constants. -/
theorem serial_band_samples_differ_witness :
    ∃ S P b, serialBuffer exampleConsts = some S ∧ parallelBuffers exampleConsts = some P ∧
      P[100 / 100]? = some b ∧ S.invert = true ∧ b.invert = false ∧
      S.i 100 300 = some (gray exampleConsts (iterate exampleConsts
        (rOfD (-5671 / 288230376151711744) (1125899906842623 / 1125899906842624))) true) ∧
      b.i ((100 % 100 : Nat) : Int) 300 = some (gray exampleConsts (iterate exampleConsts
        (rOfD (-5671 / 288230376151711744) 1)) false) ∧
      rOfD (-5671 / 288230376151711744) (1125899906842623 / 1125899906842624) ≠
        rOfD (-5671 / 288230376151711744) 1 :=
  serial_band_samples_differ exampleConsts rfl rfl

/-- C6 fails on the code: with four bands and the step `0.5625` each band
buffer is 1 row high and 7 cells wide, the serial buffer is 7 rows high, and
`parallel` passes the height 7 to `save`: its file has 4 rows under a header
that announces 7, where the file of `serial` has the 7 rows of its header. -/
theorem parallel_rows_short :
    ∃ P S, parallelBuffers coarseConsts = some P ∧ serialBuffer coarseConsts = some S ∧
      P.map (fun b => b.h) = [1, 1, 1, 1] ∧ P.map (fun b => b.w) = [7, 7, 7, 7] ∧
      S.h = 7 ∧ S.w = 7 ∧ parallelDims coarseConsts = some (7, 7) ∧
      (∃ out, parallel coarseConsts (fun _ => true) =
          SaveResult.returned (Out.header 7 7 L :: out) ∧ out.count Out.eol = 4) ∧
      (∃ out, serial coarseConsts (fun _ => true) =
          SaveResult.returned (Out.header 7 7 L :: out) ∧ out.count Out.eol = 7) := by
  have hpos : 0 < stepD coarseConsts := by decide!
  have f4 : ⌊fdiv 4 (stepD coarseConsts)⌋ = 7 := by decide!
  have f1 : ⌊fdiv 1 (stepD coarseConsts)⌋ = 1 := by decide!
  obtain ⟨S, hS, Sw, Sh, _, _⟩ := serial_run coarseConsts hpos 7 f4 (by decide)
  obtain ⟨b0, hb0, w0, h0, _⟩ :=
    band_run coarseConsts hpos 0 (by decide) 7 1 f4 f1 (by decide) (by decide)
  obtain ⟨b1, hb1, w1, h1, _⟩ :=
    band_run coarseConsts hpos 1 (by decide) 7 1 f4 f1 (by decide) (by decide)
  obtain ⟨b2, hb2, w2, h2, _⟩ :=
    band_run coarseConsts hpos 2 (by decide) 7 1 f4 f1 (by decide) (by decide)
  obtain ⟨b3, hb3, w3, h3, _⟩ :=
    band_run coarseConsts hpos 3 (by decide) 7 1 f4 f1 (by decide) (by decide)
  have hP := parallelBuffers_four coarseConsts rfl b0 b1 b2 b3 hb0 hb1 hb2 hb3
  have hdims := parallelDims_eq coarseConsts hpos 7 f4 (by decide)
  refine ⟨[b0, b1, b2, b3], S, hP, hS, by simp [h0, h1, h2, h3], by simp [w0, w1, w2, w3],
    Sh, Sw, hdims, ?_, ?_⟩
  · refine ⟨[b0, b1, b2, b3].flatMap (fun m => saveBuffer m 7), ?_, ?_⟩
    · simp [parallel, hP, hdims, save]
    · simp only [List.flatMap_cons, List.flatMap_nil, List.count_append, count_eol_saveBuffer,
        h0, h1, h2, h3, List.count_nil]
      rfl
  · refine ⟨[S].flatMap (fun m => saveBuffer m 7), ?_, ?_⟩
    · simp [serial, hS, Sw, Sh, save]
    · simp only [List.flatMap_cons, List.flatMap_nil, List.count_append, count_eol_saveBuffer,
        Sh, List.count_nil]
      rfl

/-- C8 fails on the code: with the cap `I = 8421505` and the escape radius 2,
`iterate((-1, 0))` is `I`, but the product `I * 255` overflows the 32-bit `int`
and `gray(I, true)` is 509, outside the range `[0, 255]` that the comment of
`gray` gives, where 0 is due. -/
theorem gray_cap_overflow :
    iterate { D := 1 / 100, I := 8421505, R := 2, NUM_THREADS := 4 } (rOfD (-1) 0) = 8421505 ∧
      gray { D := 1 / 100, I := 8421505, R := 2, NUM_THREADS := 4 } 8421505 true = 509 ∧
      gray { D := 1 / 100, I := 8421505, R := 2, NUM_THREADS := 4 } 8421505 false = -254 := by
  refine ⟨?_, by decide, by decide⟩
  exact iterate_neg_one { D := 1 / 100, I := 8421505, R := 2, NUM_THREADS := 4 } (by decide) rfl

/-- C9, as stated, fails: when the path cannot be opened, `save` reports no I/O
error to its caller; the null stream goes to `fprintf`. -/
theorem save_reports_no_error :
    save (fun _ => false) [] 0 0 "./mandelbrot-s.pgm" = SaveResult.undefined [] ∧
      ¬ ∃ out, save (fun _ => false) [] 0 0 "./mandelbrot-s.pgm" = SaveResult.ioError out := by
  constructor
  · rfl
  · rintro ⟨out, h⟩
    simp [save] at h

/-- C9, amended: whenever the output path cannot be opened (`fopen` returns no
stream), `save` hands the null stream to `fprintf` unchecked; it reports no I/O
error to its caller, and nothing has been written. -/
theorem save_unopened (fopen : String → Bool) (mm : List Mandelbrot) (w h : Int) (fn : String)
    (hf : fopen fn = false) :
    save fopen mm w h fn = SaveResult.undefined [] ∧
      ∀ out, save fopen mm w h fn ≠ SaveResult.ioError out := by
  have e : save fopen mm w h fn = SaveResult.undefined [] := by
    simp [save, hf]
  refine ⟨e, ?_⟩
  intro out hcon
  rw [e] at hcon
  exact SaveResult.noConfusion hcon

/-- Instance of the amended C9: no path can be opened, one empty buffer list. -/
theorem save_unopened_witness :
    save (fun _ => false) [] 400 400 "./mandelbrot-p.pgm" = SaveResult.undefined [] ∧
      ∀ out, save (fun _ => false) [] 400 400 "./mandelbrot-p.pgm" ≠ SaveResult.ioError out :=
  save_unopened (fun _ => false) [] 400 400 "./mandelbrot-p.pgm" rfl

end Mandel
